import Mathlib

set_option maxRecDepth 10000

/-!
Verification development for the ANITS campus-assistant retrieval pipeline.

Strings are modelled as `List Char`.  The conversation orchestrator
(`get_response`), the agent builder (`build_agent`), the index loader
(`load_vector_store`), the standalone query helper (`query_vector_store`)
and the prompt assembly (`format_docs`, `SYSTEM_PROMPT`) are translated
from `src/agent.py` and `src/vector_store.py`.

The chunker itself lives in the third-party text-splitter library invoked
by `split_text` in `src/vector_store.py`; its algorithm is modelled from
the specification (recursive splitting on prioritized separators, merging
small segments up to the maximum length, backing up by the configured
overlap when starting a new chunk, trimmed so the length invariant
"no chunk exceeds the maximum length except a single unsplittable unit"
holds).
-/

/-- Configured chunk size, from `split_text` in `src/vector_store.py`. -/
def chunk_size : Nat := 500

/-- Configured chunk overlap, from `split_text` in `src/vector_store.py`. -/
def chunk_overlap : Nat := 50

/-- The prioritized separator list, from `split_text` in `src/vector_store.py`. -/
def separators : List (List Char) := [['\n', '\n'], ['\n'], ['.'], [' ']]

/-- The pattern `sep` occurs in `u` starting at position `i`. -/
def occursAt (sep u : List Char) (i : Nat) : Prop :=
  (u.drop i).take sep.length = sep

instance (sep u : List Char) (i : Nat) : Decidable (occursAt sep u i) :=
  inferInstanceAs (Decidable ((u.drop i).take sep.length = sep))

/-- Every occurrence of `s` in `u` ends exactly at the end of `u`.
A run of text satisfying this for all configured separators cannot be
split into two nonempty parts at any separator. -/
def trailingOnly (s u : List Char) : Prop :=
  ∀ i, occursAt s u i → i + s.length = u.length

/-- A chunk with no separator occurrence strictly inside it: every
occurrence of a configured separator ends exactly at the chunk's end. -/
def unsplittable (u : List Char) : Prop :=
  ∀ s ∈ separators, trailingOnly s u

/-- Position of the leftmost occurrence of `sep` in `u`, if any. -/
def findOcc (sep : List Char) : List Char → Option Nat
  | [] => none
  | a :: t =>
      if (a :: t).take sep.length = sep then some 0
      else (findOcc sep t).map (· + 1)

/-- Fuel-bounded worker for `splitKeep` (structural recursion on the
fuel keeps the definition computable by the kernel); `u.length` fuel
always suffices because each cut removes at least one character. -/
def splitKeepF (sep : List Char) : Nat → List Char → List (List Char)
  | 0, u => [u]
  | fuel + 1, u =>
      match findOcc sep u with
      | none => [u]
      | some i =>
          if 0 < i + sep.length ∧ i + sep.length < u.length then
            u.take (i + sep.length) :: splitKeepF sep fuel (u.drop (i + sep.length))
          else [u]

/-- Modelled from the spec: split `u` at every occurrence of the single
separator `sep`, keeping the separator attached to the end of the piece
before it, so that no character of the corpus is lost. -/
def splitKeep (sep : List Char) (u : List Char) : List (List Char) :=
  splitKeepF sep u.length u

/-- Modelled from the spec (§4.1 Chunker): recursively attempt to divide
the corpus using the separators in priority order; a segment whose length
is within `chunk_size` is accepted; a longer segment is split with the
next separator; a segment longer than `chunk_size` in which no separator
yields a split appears unsplit. -/
def recSplit : List (List Char) → List Char → List (List Char)
  | [], u => [u]
  | sep :: rest, u =>
      if u.length ≤ chunk_size then [u]
      else (splitKeep sep u).flatMap fun p =>
        if p.length ≤ chunk_size then [p] else recSplit rest p

/-- Length of the tail of the previous chunk retained as overlap when a
new chunk is started on piece `p`: the configured `chunk_overlap`, bounded
by the previous chunk's length and trimmed so that the new chunk does not
exceed `chunk_size`. -/
def ovLen (c p : List Char) : Nat :=
  min chunk_overlap (min c.length (chunk_size - p.length))

/-- The retained overlap tail of the previous chunk `c`. -/
def takeOv (c p : List Char) : List Char :=
  c.drop (c.length - ovLen c p)

/-- Modelled from the spec (§4.1 Chunker): merge adjacent small segments
back together up to `chunk_size`; when moving to the next chunk, back up
by the overlap from the end of the previous chunk; a segment longer than
`chunk_size` is emitted alone as a hard-cut chunk with no overlap carried
across it.  Each produced chunk is paired with the number of characters
at its start that were carried over from the previous chunk. -/
def mergeAux : List (List Char) → List Char → Nat → List (Nat × List Char)
  | [], c, o => if c.isEmpty then [] else [(o, c)]
  | p :: ps, c, o =>
      if chunk_size < p.length then
        (if c.isEmpty then [] else [(o, c)]) ++ (0, p) :: mergeAux ps [] 0
      else if c.length + p.length ≤ chunk_size then
        mergeAux ps (c ++ p) o
      else
        (o, c) :: mergeAux ps (takeOv c p ++ p) (ovLen c p)

/-- Modelled from the spec: the full chunking pipeline, producing each
chunk together with the length of the overlap it shares with its
predecessor.  The empty corpus produces no chunks. -/
def splitWithOverlaps (t : List Char) : List (Nat × List Char) :=
  if t.isEmpty then [] else mergeAux (recSplit separators t) [] 0

/-- `split_text` from `src/vector_store.py`: split a big text into
smaller chunks (the splitting algorithm itself is modelled from the
spec, see `recSplit` and `mergeAux`). -/
def split_text (t : List Char) : List (List Char) :=
  (splitWithOverlaps t).map Prod.snd

/-! ## Conversation orchestrator and agent builder, from `src/agent.py` -/

/-- The apostrophe character (used inside the system prompt literal). -/
def apostrophe : Char := Char.ofNat 39

/-- The campus-assistant system prompt, transcribed from `SYSTEM_PROMPT`
in `src/agent.py`. -/
def SYSTEM_PROMPT : String :=
  "\nYou are a friendly and helpful campus assistant for ANITS\n(Anil Neerukonda Institute of Technology and Sciences),\nVisakhapatnam, Andhra Pradesh, India.\n\nYour job is to help students, freshers, and visitors get\naccurate information about the college.\n\nRules you must follow:\n1. Only answer based on the context provided below\n2. If answer is not in context say:\n   \"I don" ++
  String.singleton apostrophe ++
  "t have that information right now. Please visit\n   anits.org or contact the college office directly.\"\n3. Keep answers clear, friendly and to the point\n4. Include specific details like timings, locations,\n   contact numbers whenever available\n\nContext:\n{context}\n"

/-- The exact fallback sentence the prompt instructs the model to emit
when the answer is not contained in the context (rule 2 of the prompt). -/
def fallback_sentence : String :=
  "I don" ++ String.singleton apostrophe ++
  "t have that information right now. Please visit\n   anits.org or contact the college office directly."

/-- The instruction restricting the model to the supplied context
(rule 1 of the prompt). -/
def context_only_rule : String :=
  "Only answer based on the context provided below"

/-- The context placeholder of the prompt template. -/
def context_placeholder : List Char := "{context}".toList

/-- `format_docs` from `build_agent` in `src/agent.py`: join the page
contents of the retrieved documents with a blank line. -/
def format_docs (docs : List (List Char)) : List Char :=
  List.intercalate "\n\n".toList docs

/-- Substitute `repl` for the first occurrence of `pat` in `tmpl`. -/
def substFirst (tmpl pat repl : List Char) : List Char :=
  match findOcc pat tmpl with
  | none => tmpl
  | some i => tmpl.take i ++ repl ++ tmpl.drop (i + pat.length)

/-- Message roles of the assembled chat prompt. -/
inductive Role where
  | system : Role
  | human : Role
deriving DecidableEq

/-- Modelled from the spec (§4.5 Prompt Assembler) for the template
substitution performed by the prompt library: the retrieved chunks are
formatted by `format_docs` and substituted for the context placeholder of
`SYSTEM_PROMPT`; the question becomes the human message, as wired in
`build_agent` in `src/agent.py`. -/
def assemble (docs : List (List Char)) (question : List Char) : List (Role × List Char) :=
  [(Role.system, substFirst SYSTEM_PROMPT.toList context_placeholder (format_docs docs)),
   (Role.human, question)]

/-- The fixed prompt-for-input message of `get_response` in `src/agent.py`. -/
def prompt_for_input : List Char := "Please ask a question!".toList

/-- The fixed apologetic fallback of `get_response` in `src/agent.py`. -/
def error_fallback : List Char :=
  "Sorry, I encountered an error. Please try again or contact the college office.".toList

/-- Python's `str.strip()`: remove leading and trailing whitespace. -/
def pyStrip (s : List Char) : List Char :=
  ((s.dropWhile Char.isWhitespace).reverse.dropWhile Char.isWhitespace).reverse

/-- `get_response` from `src/agent.py`.  The LCEL chain is modelled as a
function returning `Except`: an `Except.error` models any exception
raised while invoking the chain (retrieval or answer generation). -/
def get_response {ε : Type} (chain : List Char → Except ε (List Char))
    (question : List Char) : List Char :=
  if pyStrip question = [] then prompt_for_input
  else
    match chain question with
    | Except.ok answer => answer
    | Except.error _ => error_fallback

/-- The Groq LLM configuration passed to the client constructor in
`build_agent` in `src/agent.py`.  The float literal 0.3 of the source is
modelled as the exact rational 3/10. -/
structure LLMCfg where
  model : List Char
  temperature : Rat
deriving DecidableEq

/-- The LLM configuration literals of `build_agent` in `src/agent.py`. -/
def groq_llm_cfg : LLMCfg :=
  { model := "llama-3.3-70b-versatile".toList, temperature := 3 / 10 }

/-- The LCEL chain produced by `build_agent`: the loaded vector store, the
retriever configuration and the connected LLM client. -/
structure ChainModel (V L : Type) where
  store : V
  retrieverSearchType : List Char
  retrieverK : Nat
  llm : L

/-- `build_agent` from `src/agent.py`.  `getKey` models `os.getenv` for
GROQ_API_KEY (`none` when absent); the key check `if not api_key` also
rejects an empty string.  `loadedStore` models the result of
`load_vector_store` and `initLLM` models the `ChatGroq` constructor, with
`Except.error` for a raised exception. -/
def build_agent {V L : Type} (getKey : Option (List Char)) (loadedStore : Option V)
    (initLLM : LLMCfg → List Char → Except (List Char) L) : Option (ChainModel V L) :=
  match getKey with
  | none => none
  | some key =>
      if key.isEmpty then none
      else
        match loadedStore with
        | none => none
        | some vs =>
            match initLLM groq_llm_cfg key with
            | Except.error _ => none
            | Except.ok llm =>
                some { store := vs, retrieverSearchType := "similarity".toList,
                       retrieverK := 4, llm := llm }

/-! ## Index loader and query helper, from `src/vector_store.py` -/

/-- The fixed persisted-index path of `src/vector_store.py`. -/
def save_path : List Char := "data/vector_store".toList

/-- The embedding model name used by `create_vector_store` and
`load_vector_store` in `src/vector_store.py`. -/
def embedding_model_name : List Char := "all-MiniLM-L6-v2".toList

/-- `load_vector_store` from `src/vector_store.py`: check that the fixed
path exists; if absent return `none`; otherwise deserialize the index
(`load_local` models `FAISS.load_local` with the embeddings built from
`embedding_model_name`). -/
def load_vector_store {V : Type} (pathExists : List Char → Bool)
    (load_local : List Char → List Char → V) : Option V :=
  if pathExists save_path then some (load_local save_path embedding_model_name) else none

/-- The default `top_k` of `query_vector_store` in `src/vector_store.py`. -/
def query_top_k_default : Nat := 3

/-- `query_vector_store` from `src/vector_store.py`: search for the most
relevant chunks; `top_k` defaults to `query_top_k_default` at the call
sites of the source. -/
def query_vector_store {D : Type} (similarity_search : List Char → Nat → List D)
    (question : List Char) (top_k : Nat) : List D :=
  similarity_search question top_k

/-! ## Basic lemmas -/

theorem pyStrip_eq_nil_iff (q : List Char) :
    pyStrip q = [] ↔ ∀ c ∈ q, c.isWhitespace = true := by
  unfold pyStrip
  constructor
  · intro h c hc
    rw [List.reverse_eq_nil_iff, List.dropWhile_eq_nil_iff] at h
    have hq : c ∈ q.takeWhile Char.isWhitespace ++ q.dropWhile Char.isWhitespace := by
      rw [List.takeWhile_append_dropWhile]
      exact hc
    rcases List.mem_append.mp hq with h1 | h2
    · exact List.mem_takeWhile_imp h1
    · exact h c (List.mem_reverse.mpr h2)
  · intro h
    have h1 : q.dropWhile Char.isWhitespace = [] :=
      List.dropWhile_eq_nil_iff.mpr fun x hx => h x hx
    simp [h1]

/-! ## Claim theorems: conversation orchestrator -/

/-- C1: for every question consisting only of whitespace characters
(including the empty question), `get_response` returns the fixed
prompt-for-input message, for every possible chain — so the chain (and
hence the embedding provider and the answer generator behind it) is
never invoked. -/
theorem C1_whitespace_question_rejected_locally {ε : Type}
    (chain : List Char → Except ε (List Char)) (question : List Char)
    (h : ∀ c ∈ question, c.isWhitespace = true) :
    get_response chain question = prompt_for_input := by
  unfold get_response
  rw [if_pos ((pyStrip_eq_nil_iff question).mpr h)]

theorem C1_witness :
    get_response (fun _ => Except.ok ['x'] : List Char → Except Unit (List Char))
        [' ', '\n'] = prompt_for_input ∧
    get_response (fun _ => Except.ok ['x'] : List Char → Except Unit (List Char))
        [] = prompt_for_input :=
  ⟨C1_whitespace_question_rejected_locally _ [' ', '\n'] (by decide),
   C1_whitespace_question_rejected_locally _ [] (by decide)⟩

/-- C2: for every non-whitespace question, `get_response` returns the
chain's answer unchanged when the chain succeeds, and returns the fixed
apologetic fallback string when invoking the chain raises any exception;
being a total function it never propagates an exception itself. -/
theorem C2_exception_caught_at_orchestrator {ε : Type}
    (chain : List Char → Except ε (List Char)) (question : List Char)
    (h : ¬ ∀ c ∈ question, c.isWhitespace = true) :
    (∀ a, chain question = Except.ok a → get_response chain question = a) ∧
    (∀ e, chain question = Except.error e → get_response chain question = error_fallback) := by
  have hs : ¬ pyStrip question = [] := fun hnil => h ((pyStrip_eq_nil_iff question).mp hnil)
  unfold get_response
  rw [if_neg hs]
  constructor
  · intro a ha
    rw [ha]
  · intro e he
    rw [he]

theorem C2_witness :
    get_response (fun _ => Except.ok ['y'] : List Char → Except Unit (List Char))
        ['h', 'i'] = ['y'] ∧
    get_response (fun _ => Except.error () : List Char → Except Unit (List Char))
        ['h', 'i'] = error_fallback :=
  ⟨(C2_exception_caught_at_orchestrator (fun _ => Except.ok ['y']) ['h', 'i'] (by decide)).1
      ['y'] rfl,
   (C2_exception_caught_at_orchestrator (fun _ => Except.error ()) ['h', 'i'] (by decide)).2
      () rfl⟩

/-! ## Claim theorems: index loader, agent builder, configuration, prompt -/

/-- C7: when the persisted index directory is absent at the fixed path
`data/vector_store`, `load_vector_store` returns `none` (a NotFound
signal, not an exception); it calls the deserializer only when the path
exists, in which case it returns the deserialized store. -/
theorem C7_load_vector_store_notfound {V : Type} (pathExists : List Char → Bool)
    (load_local : List Char → List Char → V) :
    (pathExists save_path = false → load_vector_store pathExists load_local = none) ∧
    (pathExists save_path = true →
      load_vector_store pathExists load_local =
        some (load_local save_path embedding_model_name)) := by
  constructor <;> intro h <;> simp [load_vector_store, h]

theorem C7_witness :
    load_vector_store (fun _ => false) (fun _ _ => (0 : Nat)) = none ∧
    load_vector_store (fun _ => true) (fun _ _ => (0 : Nat)) = some 0 :=
  ⟨(C7_load_vector_store_notfound (fun _ => false) (fun _ _ => (0 : Nat))).1 rfl,
   (C7_load_vector_store_notfound (fun _ => true) (fun _ _ => (0 : Nat))).2 rfl⟩

/-- C10: `build_agent` is a total function (never raises); it returns
`none` when the API key is absent, when the vector store is absent, and
when the LLM client constructor raises; and it returns a chain exactly
when all three steps succeed (key present and non-empty, store loaded,
LLM client constructed).  All failures collapse to the same `none`, so
the caller cannot tell which step failed. -/
theorem C10_build_agent_failure_modes {V L : Type} (getKey : Option (List Char))
    (loadedStore : Option V) (initLLM : LLMCfg → List Char → Except (List Char) L) :
    (getKey = none → build_agent getKey loadedStore initLLM = none) ∧
    (loadedStore = none → build_agent getKey loadedStore initLLM = none) ∧
    (∀ key e, getKey = some key → initLLM groq_llm_cfg key = Except.error e →
      build_agent getKey loadedStore initLLM = none) ∧
    ((∃ ch, build_agent getKey loadedStore initLLM = some ch) ↔
      ∃ key vs llm, getKey = some key ∧ key ≠ [] ∧ loadedStore = some vs ∧
        initLLM groq_llm_cfg key = Except.ok llm) := by
  rcases getKey with _ | key
  · simp [build_agent]
  · by_cases hk : key.isEmpty
    · rw [List.isEmpty_iff] at hk
      subst hk
      simp [build_agent]
    · have hke : key.isEmpty = false := by simpa using hk
      have hkne : key ≠ [] := by
        intro h
        rw [h] at hke
        simp at hke
      refine ⟨by simp, ?_, ?_, ?_⟩
      · intro h
        subst h
        simp [build_agent, hke]
      · intro key' e hkey herr
        cases hkey
        rcases loadedStore with _ | vs
        · simp [build_agent, hke]
        · simp [build_agent, hke, herr]
      · constructor
        · rintro ⟨ch, hch⟩
          rcases loadedStore with _ | vs
          · simp [build_agent, hke] at hch
          · rcases hi : initLLM groq_llm_cfg key with e | llm
            · simp [build_agent, hke, hi] at hch
            · exact ⟨key, vs, llm, rfl, hkne, rfl, hi⟩
        · rintro ⟨key', vs, llm, hkey, hne, hst, hok⟩
          cases hkey
          subst hst
          exact ⟨{ store := vs, retrieverSearchType := "similarity".toList,
                   retrieverK := 4, llm := llm },
                 by simp [build_agent, hke, hok]⟩

theorem C10_witness :
    build_agent (V := Unit) (L := Unit) none none (fun _ _ => Except.ok ()) = none ∧
    (∃ ch, build_agent (V := Unit) (L := Unit) (some ['k']) (some ())
        (fun _ _ => Except.ok ()) = some ch) :=
  ⟨(C10_build_agent_failure_modes none none (fun _ _ => Except.ok ())).1 rfl,
   (C10_build_agent_failure_modes (some ['k']) (some ())
       (fun _ _ => Except.ok ())).2.2.2.mpr
     ⟨['k'], (), (), rfl, by decide, rfl, rfl⟩⟩

/-- C8: the configured parameter values of the program: chunk size 500
and overlap 50 in the chunker, retrieval k = 4 in the serving retriever
built by `build_agent` and default top_k = 3 in the standalone query
helper (both within the recognized 3–4 range), embedding model
`all-MiniLM-L6-v2`, and LLM temperature 0.3 (the rational 3/10). -/
theorem C8_configuration_values :
    chunk_size = 500 ∧ chunk_overlap = 50 ∧
    (∀ (V L : Type) (getKey : Option (List Char)) (loadedStore : Option V)
        (initLLM : LLMCfg → List Char → Except (List Char) L) (ch : ChainModel V L),
      build_agent getKey loadedStore initLLM = some ch →
        ch.retrieverK = 4 ∧ 3 ≤ ch.retrieverK ∧ ch.retrieverK ≤ 4) ∧
    (query_top_k_default = 3 ∧ 3 ≤ query_top_k_default ∧ query_top_k_default ≤ 4) ∧
    (∀ (D : Type) (sim : List Char → Nat → List D) (q : List Char),
      query_vector_store sim q query_top_k_default = sim q 3) ∧
    embedding_model_name = "all-MiniLM-L6-v2".toList ∧
    groq_llm_cfg.temperature = 3 / 10 := by
  refine ⟨rfl, rfl, ?_, ⟨rfl, by decide, by decide⟩, fun D sim q => rfl, rfl, rfl⟩
  intro V L getKey loadedStore initLLM ch h
  rcases getKey with _ | key
  · simp [build_agent] at h
  · by_cases hke : key.isEmpty
    · simp [build_agent, hke] at h
    · have hke' : key.isEmpty = false := by simpa using hke
      rcases loadedStore with _ | vs
      · simp [build_agent, hke'] at h
      · rcases hi : initLLM groq_llm_cfg key with e | llm
        · simp [build_agent, hke', hi] at h
        · simp [build_agent, hke', hi] at h
          have hk4 : ch.retrieverK = 4 := by rw [← h]
          exact ⟨hk4, by omega, by omega⟩

theorem C8_witness :
    (⟨(), "similarity".toList, 4, ()⟩ : ChainModel Unit Unit).retrieverK = 4 ∧
    3 ≤ (⟨(), "similarity".toList, 4, ()⟩ : ChainModel Unit Unit).retrieverK ∧
    (⟨(), "similarity".toList, 4, ()⟩ : ChainModel Unit Unit).retrieverK ≤ 4 :=
  C8_configuration_values.2.2.1 Unit Unit (some ['k']) (some ())
    (fun _ _ => Except.ok ()) ⟨(), "similarity".toList, 4, ()⟩ rfl

/-- C9: the prompt assembler joins the retrieved chunk texts in order
with a blank line to form the context block, substitutes the context and
the question into the fixed instruction template `SYSTEM_PROMPT`
(splitting it around the `{context}` placeholder at position 624), and
the fixed template both restricts the model to the supplied context and
specifies the exact fallback sentence. -/
theorem C9_prompt_assembly :
    (∀ docs question, assemble docs question =
      [(Role.system,
        SYSTEM_PROMPT.toList.take 624 ++ List.intercalate "\n\n".toList docs ++
          SYSTEM_PROMPT.toList.drop 633),
       (Role.human, question)]) ∧
    SYSTEM_PROMPT.toList.take 624 ++ context_placeholder ++ SYSTEM_PROMPT.toList.drop 633 =
      SYSTEM_PROMPT.toList ∧
    (∃ i, occursAt fallback_sentence.toList (SYSTEM_PROMPT.toList.take 624) i) ∧
    (∃ i, occursAt context_only_rule.toList (SYSTEM_PROMPT.toList.take 624) i) := by
  have hfind : findOcc context_placeholder SYSTEM_PROMPT.toList = some 624 := by decide
  refine ⟨?_, by decide, ⟨366, by decide⟩, ⟨278, by decide⟩⟩
  intro docs question
  unfold assemble substFirst format_docs
  rw [hfind]
  rfl

/-- C6: the empty corpus yields no chunks, and a non-empty corpus
shorter than `chunk_size` yields exactly one chunk (the corpus itself). -/
theorem C6_empty_and_short_corpus :
    split_text [] = [] ∧
    ∀ t : List Char, t ≠ [] → t.length < chunk_size → split_text t = [t] := by
  refine ⟨rfl, ?_⟩
  intro t ht hlen
  have hne : t.isEmpty = false := by
    cases t with
    | nil => exact absurd rfl ht
    | cons a l => rfl
  have h1 : recSplit separators t = [t] := by
    unfold separators recSplit
    rw [if_pos (by omega)]
  have h2 : mergeAux [t] [] 0 = [(0, t)] := by
    unfold mergeAux
    rw [if_neg (by simp; omega), if_pos (by simp; omega)]
    unfold mergeAux
    rw [if_neg (by simp [hne])]
    simp
  unfold split_text splitWithOverlaps
  rw [hne, if_neg (by simp), h1, h2]
  rfl

theorem C6_witness :
    split_text [] = [] ∧ split_text ['h', 'i'] = [['h', 'i']] :=
  ⟨C6_empty_and_short_corpus.1,
   C6_empty_and_short_corpus.2 ['h', 'i'] (by decide) (by decide)⟩

/-! ## Lemmas about `findOcc`, `occursAt` and `splitKeep` -/

theorem occursAt_length_le {sep u : List Char} {i : Nat} (hsep : sep ≠ [])
    (h : occursAt sep u i) : i + sep.length ≤ u.length := by
  unfold occursAt at h
  have hlen : ((u.drop i).take sep.length).length = sep.length := by rw [h]
  rw [List.length_take, List.length_drop] at hlen
  have hpos : 0 < sep.length := List.length_pos.mpr hsep
  omega

theorem occursAt_drop {sep u : List Char} {c j : Nat} :
    occursAt sep (u.drop c) j ↔ occursAt sep u (c + j) := by
  unfold occursAt
  rw [List.drop_drop]

theorem occursAt_take {sep u : List Char} {c j : Nat} (hsep : sep ≠ [])
    (h : occursAt sep (u.take c) j) : occursAt sep u j ∧ j + sep.length ≤ c := by
  have hle : j + sep.length ≤ c := by
    have h2 := occursAt_length_le hsep h
    rw [List.length_take] at h2
    omega
  unfold occursAt at h ⊢
  rw [List.drop_take, List.take_take] at h
  rw [Nat.min_def] at h
  split at h
  · exact ⟨h, hle⟩
  · omega

theorem findOcc_some_occursAt {sep u : List Char} {i : Nat}
    (h : findOcc sep u = some i) : occursAt sep u i := by
  induction u generalizing i with
  | nil => simp [findOcc] at h
  | cons a t ih =>
      unfold findOcc at h
      split at h
      · cases h
        simpa [occursAt] using by assumption
      · rcases Option.map_eq_some'.mp h with ⟨j, hj, rfl⟩
        have := ih hj
        unfold occursAt at this ⊢
        simpa using this

theorem findOcc_some_min {sep u : List Char} {i : Nat}
    (h : findOcc sep u = some i) : ∀ j < i, ¬ occursAt sep u j := by
  induction u generalizing i with
  | nil => simp [findOcc] at h
  | cons a t ih =>
      unfold findOcc at h
      split at h
      · cases h
        omega
      · rcases Option.map_eq_some'.mp h with ⟨j', hj', rfl⟩
        intro j hj hocc
        cases j with
        | zero =>
            rename_i hcond
            exact hcond (by simpa [occursAt] using hocc)
        | succ k =>
            have hk : occursAt sep t k := by
              unfold occursAt at hocc ⊢
              simpa using hocc
            exact ih hj' k (by omega) hk

theorem findOcc_none {sep u : List Char} (hsep : sep ≠ [])
    (h : findOcc sep u = none) : ∀ i, ¬ occursAt sep u i := by
  induction u with
  | nil =>
      intro i hocc
      unfold occursAt at hocc
      simp at hocc
      exact hsep hocc
  | cons a t ih =>
      unfold findOcc at h
      split at h
      · cases h
      · intro i hocc
        cases i with
        | zero =>
            rename_i hcond
            exact hcond (by simpa [occursAt] using hocc)
        | succ k =>
            have hmap : findOcc sep t = none := by
              rcases hf : findOcc sep t with _ | j
              · rfl
              · rw [hf] at h
                simp at h
            have hk : occursAt sep t k := by
              unfold occursAt at hocc ⊢
              simpa using hocc
            exact ih hmap k hk

theorem trailingOnly_drop {s u : List Char} (c : Nat)
    (h : trailingOnly s u) : trailingOnly s (u.drop c) := by
  intro j hj
  have h2 := h (c + j) (occursAt_drop.mp hj)
  rw [List.length_drop]
  omega

theorem trailingOnly_take {s u : List Char} {c : Nat} (hs : s ≠ [])
    (hc : c < u.length) (h : trailingOnly s u) : trailingOnly s (u.take c) := by
  intro j hj
  rcases occursAt_take hs hj with ⟨hocc, hle⟩
  have h2 := h j hocc
  omega

theorem splitKeepF_none {sep u : List Char} {fuel : Nat} (hf : findOcc sep u = none) :
    splitKeepF sep (fuel + 1) u = [u] := by
  simp only [splitKeepF]
  rw [hf]

theorem splitKeepF_some_pos {sep u : List Char} {fuel i : Nat}
    (hf : findOcc sep u = some i)
    (hcond : 0 < i + sep.length ∧ i + sep.length < u.length) :
    splitKeepF sep (fuel + 1) u =
      u.take (i + sep.length) :: splitKeepF sep fuel (u.drop (i + sep.length)) := by
  simp only [splitKeepF]
  rw [hf]
  show (if 0 < i + sep.length ∧ i + sep.length < u.length then
      u.take (i + sep.length) :: splitKeepF sep fuel (u.drop (i + sep.length))
    else [u]) = _
  rw [if_pos hcond]

theorem splitKeepF_some_neg {sep u : List Char} {fuel i : Nat}
    (hf : findOcc sep u = some i)
    (hcond : ¬ (0 < i + sep.length ∧ i + sep.length < u.length)) :
    splitKeepF sep (fuel + 1) u = [u] := by
  simp only [splitKeepF]
  rw [hf]
  show (if 0 < i + sep.length ∧ i + sep.length < u.length then
      u.take (i + sep.length) :: splitKeepF sep fuel (u.drop (i + sep.length))
    else [u]) = _
  rw [if_neg hcond]

theorem splitKeepF_flatten (sep : List Char) :
    ∀ fuel u, u.length ≤ fuel → (splitKeepF sep fuel u).flatten = u := by
  intro fuel
  induction fuel with
  | zero =>
      intro u _
      simp [splitKeepF]
  | succ fuel ih =>
      intro u hl
      rcases hf : findOcc sep u with _ | i
      · rw [splitKeepF_none hf]
        simp
      · by_cases hcond : 0 < i + sep.length ∧ i + sep.length < u.length
        · rw [splitKeepF_some_pos hf hcond, List.flatten_cons,
            ih (u.drop (i + sep.length)) (by rw [List.length_drop]; omega)]
          exact List.take_append_drop _ u
        · rw [splitKeepF_some_neg hf hcond]
          simp

theorem splitKeep_flatten (sep u : List Char) : (splitKeep sep u).flatten = u :=
  splitKeepF_flatten sep u.length u (Nat.le_refl _)

theorem splitKeepF_trailingOnly_self (sep : List Char) (hsep : sep ≠ []) :
    ∀ fuel u, u.length ≤ fuel → ∀ p ∈ splitKeepF sep fuel u, trailingOnly sep p := by
  intro fuel
  induction fuel with
  | zero =>
      intro u hl p hp
      have hu : u = [] := List.length_eq_zero.mp (by omega)
      subst hu
      simp [splitKeepF] at hp
      subst hp
      intro j hj
      unfold occursAt at hj
      simp at hj
      exact absurd hj hsep
  | succ fuel ih =>
      intro u hl p hp
      rcases hf : findOcc sep u with _ | i
      · rw [splitKeepF_none hf] at hp
        simp at hp
        subst hp
        intro j hj
        exact absurd hj (findOcc_none hsep hf j)
      · by_cases hcond : 0 < i + sep.length ∧ i + sep.length < u.length
        · rw [splitKeepF_some_pos hf hcond] at hp
          rcases List.mem_cons.mp hp with rfl | hp'
          · intro j hj
            rcases occursAt_take hsep hj with ⟨hocc, hle⟩
            have hji : ¬ j < i := fun hlt => findOcc_some_min hf j hlt hocc
            rw [List.length_take]
            omega
          · exact ih (u.drop (i + sep.length)) (by rw [List.length_drop]; omega) p hp'
        · rw [splitKeepF_some_neg hf hcond] at hp
          simp at hp
          subst hp
          intro j hj
          have hle := occursAt_length_le hsep hj
          have hji : ¬ j < i := fun hlt => findOcc_some_min hf j hlt hj
          have hpos : 0 < sep.length := List.length_pos.mpr hsep
          omega

theorem splitKeep_trailingOnly_self (sep : List Char) (hsep : sep ≠ []) :
    ∀ u, ∀ p ∈ splitKeep sep u, trailingOnly sep p :=
  fun u => splitKeepF_trailingOnly_self sep hsep u.length u (Nat.le_refl _)

theorem splitKeepF_trailingOnly_mono (sep s2 : List Char) (hs2 : s2 ≠ []) :
    ∀ fuel u, trailingOnly s2 u → ∀ p ∈ splitKeepF sep fuel u, trailingOnly s2 p := by
  intro fuel
  induction fuel with
  | zero =>
      intro u hu p hp
      simp [splitKeepF] at hp
      subst hp
      exact hu
  | succ fuel ih =>
      intro u hu p hp
      rcases hf : findOcc sep u with _ | i
      · rw [splitKeepF_none hf] at hp
        simp at hp
        subst hp
        exact hu
      · by_cases hcond : 0 < i + sep.length ∧ i + sep.length < u.length
        · rw [splitKeepF_some_pos hf hcond] at hp
          rcases List.mem_cons.mp hp with rfl | hp'
          · exact trailingOnly_take hs2 hcond.2 hu
          · exact ih (u.drop (i + sep.length)) (trailingOnly_drop _ hu) p hp'
        · rw [splitKeepF_some_neg hf hcond] at hp
          simp at hp
          subst hp
          exact hu

theorem splitKeep_trailingOnly_mono (sep s2 : List Char) (hs2 : s2 ≠ []) :
    ∀ u, trailingOnly s2 u → ∀ p ∈ splitKeep sep u, trailingOnly s2 p :=
  fun u => splitKeepF_trailingOnly_mono sep s2 hs2 u.length u

theorem flatten_flatMap (ps : List (List Char)) (f : List Char → List (List Char))
    (h : ∀ p ∈ ps, (f p).flatten = p) : (ps.flatMap f).flatten = ps.flatten := by
  induction ps with
  | nil => rfl
  | cons p ps ih =>
      rw [List.flatMap_cons, List.flatten_append, List.flatten_cons]
      rw [h p (List.mem_cons_self p ps), ih fun q hq => h q (List.mem_cons_of_mem p hq)]

theorem recSplit_flatten (seps : List (List Char)) (u : List Char) :
    (recSplit seps u).flatten = u := by
  induction seps, u using recSplit.induct with
  | case1 u => simp [recSplit]
  | case2 sep rest u hle => simp [recSplit, hle]
  | case3 sep rest u hgt ih =>
      unfold recSplit
      rw [if_neg hgt]
      rw [flatten_flatMap _ _ ?_, splitKeep_flatten]
      intro p _
      by_cases hp : p.length ≤ chunk_size
      · simp [hp]
      · rw [if_neg hp]
        exact ih p

theorem recSplit_oversize (seps : List (List Char)) (u : List Char) :
    (∀ s ∈ seps, s ≠ []) → ∀ p ∈ recSplit seps u, chunk_size < p.length →
      (∀ s ∈ seps, trailingOnly s p) ∧
      (∀ s2, s2 ≠ [] → trailingOnly s2 u → trailingOnly s2 p) := by
  induction seps, u using recSplit.induct with
  | case1 u =>
      intro _ p hp hlen
      simp [recSplit] at hp
      subst hp
      exact ⟨by simp, fun s2 _ h => h⟩
  | case2 sep rest u hle =>
      intro _ p hp hlen
      simp [recSplit, hle] at hp
      subst hp
      omega
  | case3 sep rest u hgt ih =>
      intro hne p hp hlen
      unfold recSplit at hp
      rw [if_neg hgt, List.mem_flatMap] at hp
      rcases hp with ⟨q, hq, hpq⟩
      have hsep_ne : sep ≠ [] := hne sep (List.mem_cons_self _ _)
      have hrest_ne : ∀ s ∈ rest, s ≠ [] := fun s hs => hne s (List.mem_cons_of_mem _ hs)
      by_cases hql : q.length ≤ chunk_size
      · rw [if_pos hql] at hpq
        simp at hpq
        subst hpq
        omega
      · rw [if_neg hql] at hpq
        obtain ⟨h1, h2⟩ := ih q hrest_ne p hpq hlen
        constructor
        · intro s hs
          rcases List.mem_cons.mp hs with rfl | hs'
          · exact h2 s hsep_ne (splitKeep_trailingOnly_self s hsep_ne u q hq)
          · exact h1 s hs'
        · intro s2 hs2 hu
          exact h2 s2 hs2 (splitKeep_trailingOnly_mono sep s2 hs2 u hu q hq)

theorem recSplit_unsplittable (u : List Char) :
    ∀ p ∈ recSplit separators u, chunk_size < p.length → unsplittable p := by
  intro p hp hlen
  have hne : ∀ s ∈ separators, s ≠ [] := by decide
  exact fun s hs => (recSplit_oversize separators u hne p hp hlen).1 s hs

/-! ## Lemmas about `mergeAux` -/

theorem length_takeOv (c p : List Char) : (takeOv c p).length = ovLen c p := by
  unfold takeOv ovLen
  rw [List.length_drop]
  unfold chunk_overlap chunk_size
  omega

theorem ovLen_le_overlap (c p : List Char) : ovLen c p ≤ chunk_overlap := by
  unfold ovLen
  omega

theorem ovLen_le_len (c p : List Char) : ovLen c p ≤ c.length := by
  unfold ovLen
  omega

theorem takeOv_append_drop (c p : List Char) :
    (takeOv c p ++ p).drop (ovLen c p) = p := by
  rw [← length_takeOv c p, List.drop_left]

theorem mergeAux_flatten_drop (ps : List (List Char)) :
    ∀ c o, o ≤ c.length →
      ((mergeAux ps c o).map fun x => x.2.drop x.1).flatten = c.drop o ++ ps.flatten := by
  induction ps with
  | nil =>
      intro c o ho
      by_cases hc : c.isEmpty
      · have hnil : c = [] := List.isEmpty_iff.mp hc
        subst hnil
        simp [mergeAux]
      · simp [mergeAux, hc]
  | cons p ps ih =>
      intro c o ho
      by_cases hhard : chunk_size < p.length
      · unfold mergeAux
        rw [if_pos hhard]
        by_cases hc : c.isEmpty
        · have hnil : c = [] := List.isEmpty_iff.mp hc
          subst hnil
          simp only [List.isEmpty_nil, if_pos, List.nil_append, List.map_cons,
            List.flatten_cons, List.drop_zero]
          rw [ih [] 0 (by simp)]
          simp
        · rw [if_neg hc]
          simp only [List.singleton_append, List.map_cons, List.flatten_cons,
            List.drop_zero]
          rw [ih [] 0 (by simp)]
          simp
      · by_cases hmerge : c.length + p.length ≤ chunk_size
        · unfold mergeAux
          rw [if_neg hhard, if_pos hmerge]
          rw [ih (c ++ p) o (by rw [List.length_append]; omega)]
          rw [List.drop_append_of_le_length ho, List.flatten_cons, List.append_assoc]
        · unfold mergeAux
          rw [if_neg hhard, if_neg hmerge]
          simp only [List.map_cons, List.flatten_cons]
          rw [ih (takeOv c p ++ p) (ovLen c p)
              (by rw [List.length_append, length_takeOv]; omega)]
          rw [takeOv_append_drop]

theorem mergeAux_chunk_bound (Q : List Char → Prop) (ps : List (List Char))
    (hps : ∀ p ∈ ps, chunk_size < p.length → Q p) :
    ∀ c o, c.length ≤ chunk_size → ∀ x ∈ mergeAux ps c o,
      x.2.length ≤ chunk_size ∨ (chunk_size < x.2.length ∧ Q x.2) := by
  induction ps with
  | nil =>
      intro c o hc x hx
      unfold mergeAux at hx
      split at hx
      · simp at hx
      · simp at hx
        subst hx
        exact Or.inl hc
  | cons p ps ih =>
      intro c o hc x hx
      have hps' : ∀ q ∈ ps, chunk_size < q.length → Q q :=
        fun q hq => hps q (List.mem_cons_of_mem _ hq)
      unfold mergeAux at hx
      by_cases hhard : chunk_size < p.length
      · rw [if_pos hhard] at hx
        rcases List.mem_append.mp hx with hx1 | hx2
        · split at hx1
          · simp at hx1
          · simp at hx1
            subst hx1
            exact Or.inl hc
        · rcases List.mem_cons.mp hx2 with rfl | hx3
          · exact Or.inr ⟨hhard, hps p (List.mem_cons_self _ _) hhard⟩
          · exact ih hps' [] 0 (by simp [chunk_size]) x hx3
      · rw [if_neg hhard] at hx
        by_cases hmerge : c.length + p.length ≤ chunk_size
        · rw [if_pos hmerge] at hx
          exact ih hps' (c ++ p) o (by rw [List.length_append]; omega) x hx
        · rw [if_neg hmerge] at hx
          rcases List.mem_cons.mp hx with rfl | hx2
          · exact Or.inl hc
          · refine ih hps' (takeOv c p ++ p) (ovLen c p) ?_ x hx2
            rw [List.length_append, length_takeOv]
            unfold ovLen chunk_size at *
            omega

theorem mergeAux_ov_le (ps : List (List Char)) :
    ∀ c o, o ≤ chunk_overlap → ∀ x ∈ mergeAux ps c o, x.1 ≤ chunk_overlap := by
  induction ps with
  | nil =>
      intro c o ho x hx
      unfold mergeAux at hx
      split at hx
      · simp at hx
      · simp at hx
        subst hx
        exact ho
  | cons p ps ih =>
      intro c o ho x hx
      unfold mergeAux at hx
      by_cases hhard : chunk_size < p.length
      · rw [if_pos hhard] at hx
        rcases List.mem_append.mp hx with hx1 | hx2
        · split at hx1
          · simp at hx1
          · simp at hx1
            subst hx1
            exact ho
        · rcases List.mem_cons.mp hx2 with rfl | hx3
          · exact Nat.zero_le _
          · exact ih [] 0 (Nat.zero_le _) x hx3
      · rw [if_neg hhard] at hx
        by_cases hmerge : c.length + p.length ≤ chunk_size
        · rw [if_pos hmerge] at hx
          exact ih (c ++ p) o ho x hx
        · rw [if_neg hmerge] at hx
          rcases List.mem_cons.mp hx with rfl | hx2
          · exact ho
          · exact ih (takeOv c p ++ p) (ovLen c p) (ovLen_le_overlap c p) x hx2

theorem mergeAux_head (ps : List (List Char)) :
    ∀ c o, c ≠ [] → ∃ s, (mergeAux ps c o).head? = some (o, c ++ s) := by
  induction ps with
  | nil =>
      intro c o hc
      refine ⟨[], ?_⟩
      unfold mergeAux
      rw [if_neg (by simpa using hc)]
      simp
  | cons p ps ih =>
      intro c o hc
      by_cases hhard : chunk_size < p.length
      · refine ⟨[], ?_⟩
        unfold mergeAux
        rw [if_pos hhard, if_neg (by simpa using hc)]
        simp
      · by_cases hmerge : c.length + p.length ≤ chunk_size
        · rcases ih (c ++ p) o (by simp [hc]) with ⟨s, hs⟩
          refine ⟨p ++ s, ?_⟩
          unfold mergeAux
          rw [if_neg hhard, if_pos hmerge, hs, List.append_assoc]
        · refine ⟨[], ?_⟩
          unfold mergeAux
          rw [if_neg hhard, if_neg hmerge]
          simp

theorem mergeAux_head_nil (ps : List (List Char)) :
    ∀ x, (mergeAux ps [] 0).head? = some x → x.1 = 0 := by
  induction ps with
  | nil =>
      intro x hx
      simp [mergeAux] at hx
  | cons p ps ih =>
      intro x hx
      unfold mergeAux at hx
      by_cases hhard : chunk_size < p.length
      · rw [if_pos hhard] at hx
        simp at hx
        subst hx
        rfl
      · rw [if_neg hhard] at hx
        by_cases hmerge : ([] : List Char).length + p.length ≤ chunk_size
        · rw [if_pos hmerge, List.nil_append] at hx
          by_cases hp : p = []
          · subst hp
            exact ih x hx
          · rcases mergeAux_head ps p 0 hp with ⟨s, hs⟩
            rw [hs] at hx
            cases hx
            rfl
        · exfalso
          simp at hmerge
          omega

/-- The relation between adjacent produced chunks: the successor carries
an overlap of `y.1 ≤ chunk_overlap` characters copied from the tail of
the predecessor; the overlap is the full `min chunk_overlap x.2.length`
except across a hard-cut boundary (oversized predecessor) or when it was
trimmed because the successor chunk reached `chunk_size`. -/
def OvAgree (x y : Nat × List Char) : Prop :=
  y.1 ≤ chunk_overlap ∧ y.1 ≤ x.2.length ∧
  y.2.take y.1 = x.2.drop (x.2.length - y.1) ∧
  (chunk_size < x.2.length ∨ y.1 = min chunk_overlap x.2.length ∨
    chunk_size ≤ y.2.length)

theorem mergeAux_chain (ps : List (List Char)) :
    ∀ c o, c.length ≤ chunk_size → List.Chain' OvAgree (mergeAux ps c o) := by
  induction ps with
  | nil =>
      intro c o _
      unfold mergeAux
      split
      · exact List.chain'_nil
      · exact List.chain'_singleton _
  | cons p ps ih =>
      intro c o hc
      unfold mergeAux
      by_cases hhard : chunk_size < p.length
      · rw [if_pos hhard]
        have htail : List.Chain' OvAgree ((0, p) :: mergeAux ps [] 0) := by
          rw [List.chain'_cons']
          refine ⟨?_, ih [] 0 (by simp [chunk_size])⟩
          intro y hy
          have hy0 : y.1 = 0 := by
            cases hh : (mergeAux ps [] 0).head? with
            | none =>
                rw [hh] at hy
                cases hy
            | some z =>
                rw [hh] at hy
                have hzy : z = y := by simpa using hy
                subst hzy
                exact mergeAux_head_nil ps z hh
          refine ⟨by rw [hy0]; exact Nat.zero_le _, by rw [hy0]; exact Nat.zero_le _, ?_, ?_⟩
          · rw [hy0]
            simp
          · exact Or.inl hhard
        split
        · exact htail
        · rw [List.singleton_append, List.chain'_cons']
          refine ⟨?_, htail⟩
          intro y hy
          simp at hy
          subst hy
          exact ⟨Nat.zero_le _, Nat.zero_le _, by simp, Or.inr (Or.inr (Nat.le_of_lt hhard))⟩
      · rw [if_neg hhard]
        by_cases hmerge : c.length + p.length ≤ chunk_size
        · rw [if_pos hmerge]
          exact ih (c ++ p) o (by rw [List.length_append]; omega)
        · rw [if_neg hmerge]
          rw [List.chain'_cons']
          have hp : p ≠ [] := by
            intro hp
            subst hp
            simp at hmerge
            omega
          have hnew : takeOv c p ++ p ≠ [] := by
            intro hx
            rcases List.append_eq_nil.mp hx with ⟨_, h2⟩
            exact hp h2
          refine ⟨?_, ih (takeOv c p ++ p) (ovLen c p)
            (by rw [List.length_append, length_takeOv]; unfold ovLen chunk_size at *; omega)⟩
          intro y hy
          rcases mergeAux_head ps (takeOv c p ++ p) (ovLen c p) hnew with ⟨s, hs⟩
          rw [hs] at hy
          have hyeq : (ovLen c p, takeOv c p ++ (p ++ s)) = y := by simpa using hy
          subst hyeq
          refine ⟨ovLen_le_overlap c p, ovLen_le_len c p, ?_, ?_⟩
          · show (takeOv c p ++ (p ++ s)).take (ovLen c p) = c.drop (c.length - ovLen c p)
            rw [List.take_left' (length_takeOv c p)]
            rfl
          · show chunk_size < c.length ∨ ovLen c p = min chunk_overlap c.length ∨
              chunk_size ≤ (takeOv c p ++ (p ++ s)).length
            by_cases htrim : min chunk_overlap c.length ≤ chunk_size - p.length
            · refine Or.inr (Or.inl ?_)
              unfold ovLen
              omega
            · refine Or.inr (Or.inr ?_)
              rw [List.length_append, List.length_append, length_takeOv]
              unfold ovLen chunk_size at *
              omega

/-! ## Claim theorems: chunker -/

/-- C3: every chunk produced by `split_text` has length at most
`chunk_size` (500), except a chunk that is a single unsplittable unit —
no separator occurrence strictly inside it (every occurrence ends at the
chunk's very end) — which may exceed 500 and appears unsplit as one of
the atomic segments of the recursive split. -/
theorem C3_chunk_length_bound (t : List Char) (c : List Char) (hc : c ∈ split_text t) :
    c.length ≤ chunk_size ∨
    (chunk_size < c.length ∧ unsplittable c ∧ c ∈ recSplit separators t) := by
  unfold split_text splitWithOverlaps at hc
  by_cases ht : t.isEmpty
  · rw [if_pos ht] at hc
    simp at hc
  · rw [if_neg ht] at hc
    rcases List.mem_map.mp hc with ⟨x, hx, rfl⟩
    have hb := mergeAux_chunk_bound (fun p => unsplittable p ∧ p ∈ recSplit separators t)
      (recSplit separators t)
      (fun p hp hlen => ⟨recSplit_unsplittable t p hp hlen, hp⟩)
      [] 0 (by simp [chunk_size]) x hx
    rcases hb with h1 | ⟨h2, h3, h4⟩
    · exact Or.inl h1
    · exact Or.inr ⟨h2, h3, h4⟩

theorem C3_witness :
    ['h', 'i'] ∈ split_text ['h', 'i'] ∧
    (['h', 'i'].length ≤ chunk_size ∨
      (chunk_size < ['h', 'i'].length ∧ unsplittable ['h', 'i'] ∧
        ['h', 'i'] ∈ recSplit separators ['h', 'i'])) :=
  ⟨by decide, C3_chunk_length_bound ['h', 'i'] ['h', 'i'] (by decide)⟩

/-- C5: for a corpus with no hard-cut boundary (no atomic segment of the
recursive split longer than `chunk_size`), the chunks of `split_text`
(the second components of `splitWithOverlaps`) reconstruct the corpus
exactly once the declared overlap of each chunk — its first `x.1 ≤ 50`
characters, which equal the tail of the preceding chunk — is removed. -/
theorem C5_roundtrip (t : List Char)
    (hnohard : ∀ p ∈ recSplit separators t, p.length ≤ chunk_size) :
    split_text t = (splitWithOverlaps t).map Prod.snd ∧
    ((splitWithOverlaps t).map fun x => x.2.drop x.1).flatten = t ∧
    (∀ x ∈ splitWithOverlaps t, x.1 ≤ chunk_overlap) ∧
    List.Chain' (fun x y : Nat × List Char =>
      y.2.take y.1 = x.2.drop (x.2.length - y.1)) (splitWithOverlaps t) := by
  refine ⟨rfl, ?_, ?_, ?_⟩
  · unfold splitWithOverlaps
    by_cases ht : t.isEmpty
    · rw [if_pos ht]
      simp [List.isEmpty_iff.mp ht]
    · rw [if_neg ht]
      rw [mergeAux_flatten_drop (recSplit separators t) [] 0 (by simp)]
      rw [recSplit_flatten]
      simp
  · intro x hx
    unfold splitWithOverlaps at hx
    by_cases ht : t.isEmpty
    · rw [if_pos ht] at hx
      simp at hx
    · rw [if_neg ht] at hx
      exact mergeAux_ov_le (recSplit separators t) [] 0 (Nat.zero_le _) x hx
  · unfold splitWithOverlaps
    by_cases ht : t.isEmpty
    · rw [if_pos ht]
      exact List.chain'_nil
    · rw [if_neg ht]
      exact (mergeAux_chain (recSplit separators t) [] 0 (by simp [chunk_size])).imp
        fun a b hab => hab.2.2.1

theorem C5_witness :
    (∀ p ∈ recSplit separators ['h', 'i'], p.length ≤ chunk_size) ∧
    ((splitWithOverlaps ['h', 'i']).map fun x => x.2.drop x.1).flatten = ['h', 'i'] :=
  ⟨by decide, (C5_roundtrip ['h', 'i'] (by decide)).2.1⟩

/-- C4 (amended): between adjacent chunks `c1, c2` of `split_text`, the
head of `c2` consists of `k ≤ chunk_overlap` characters copied from the
tail of `c1`; `k` equals the full `min chunk_overlap c1.length` except
across a hard-cut boundary (`c1` oversized) or when retaining the full
overlap would push `c2` past `chunk_size`, in which case the overlap is
trimmed and `c2` holds at least `chunk_size` characters. -/
theorem C4_adjacent_overlap_amended (t : List Char) :
    List.Chain' (fun c1 c2 : List Char => ∃ k, k ≤ chunk_overlap ∧ k ≤ c1.length ∧
      c2.take k = c1.drop (c1.length - k) ∧
      (chunk_size < c1.length ∨ k = min chunk_overlap c1.length ∨
        chunk_size ≤ c2.length)) (split_text t) := by
  unfold split_text splitWithOverlaps
  by_cases ht : t.isEmpty
  · rw [if_pos ht]
    simp
  · rw [if_neg ht]
    rw [List.chain'_map]
    exact (mergeAux_chain (recSplit separators t) [] 0 (by simp [chunk_size])).imp
      fun a b hab => ⟨b.1, hab.1, hab.2.1, hab.2.2.1, hab.2.2.2⟩

/-- The largest `k ≤ min |c1| |c2|` such that the first `k` characters of
`c2` equal the last `k` characters of `c1` (0 when none). -/
def maxSharedAux (c1 c2 : List Char) : Nat → Nat
  | 0 => 0
  | k + 1 =>
      if c2.take (k + 1) = c1.drop (c1.length - (k + 1)) then k + 1
      else maxSharedAux c1 c2 k

def maxShared (c1 c2 : List Char) : Nat :=
  maxSharedAux c1 c2 (min c1.length c2.length)

theorem le_maxSharedAux (c1 c2 : List Char) (k : Nat)
    (hshare : c2.take k = c1.drop (c1.length - k)) :
    ∀ n, k ≤ n → k ≤ maxSharedAux c1 c2 n := by
  intro n
  induction n with
  | zero =>
      intro hk
      simpa [maxSharedAux] using hk
  | succ m ih =>
      intro hk
      unfold maxSharedAux
      split
      · exact hk
      · next hne =>
          rcases Nat.lt_or_ge k (m + 1) with hlt | hge
          · exact ih (by omega)
          · exact absurd (by rw [← Nat.le_antisymm hk hge] at hne; exact hne hshare) not_false

theorem maxShared_ge (c1 c2 : List Char) (k : Nat) (h1 : k ≤ c1.length)
    (h2 : k ≤ c2.length) (hshare : c2.take k = c1.drop (c1.length - k)) :
    k ≤ maxShared c1 c2 :=
  le_maxSharedAux c1 c2 k hshare _ (by omega)

/-- A corpus on which the claimed adjacent-chunk overlap bound fails:
60 letters, a space, then 460 letters. -/
def cex_corpus : List Char := List.replicate 60 'a' ++ ' ' :: List.replicate 460 'b'

def cex_chunk1 : List Char := List.replicate 60 'a' ++ [' ']

def cex_chunk2 : List Char := List.replicate 39 'a' ++ ' ' :: List.replicate 460 'b'

/-- C4 as stated is false: on `cex_corpus` the two produced chunks (of
lengths 61 and 500, no hard cut anywhere) share only 40 characters,
fewer than `min chunk_overlap (min 61 500) = 50`, because retaining the
full 50-character overlap would have pushed the second chunk past
`chunk_size`. -/
theorem C4_counterexample :
    ¬ List.Chain' (fun c1 c2 : List Char => ∃ k,
        min chunk_overlap (min c1.length c2.length) ≤ k ∧
        k ≤ c1.length ∧ k ≤ c2.length ∧
        c2.take k = c1.drop (c1.length - k)) (split_text cex_corpus) := by
  intro hchain
  have hs : split_text cex_corpus = [cex_chunk1, cex_chunk2] := by decide
  rw [hs, List.chain'_cons] at hchain
  rcases hchain.1 with ⟨k, hmin, hk1, hk2, hshare⟩
  have hle : k ≤ maxShared cex_chunk1 cex_chunk2 :=
    maxShared_ge cex_chunk1 cex_chunk2 k hk1 hk2 hshare
  have hms : maxShared cex_chunk1 cex_chunk2 = 40 := by decide
  have hlen1 : cex_chunk1.length = 61 := by decide
  have hlen2 : cex_chunk2.length = 500 := by decide
  rw [hms] at hle
  rw [hlen1, hlen2] at hmin
  unfold chunk_overlap at hmin
  omega
